import Mathlib

/-!
Shallow embedding of the image-weaving pipeline implemented in
`src/components/ImageEditor.tsx` (`processAndDownload`, `handleInputChange`,
`createCanvas`) of the `image-weaving` repository, together with theorems
checking the natural-language specification against it.

Modelling conventions:
* A canvas / decoded bitmap is an `Img`: a width, a height, and a total
  pixel function `ℕ → ℕ → ℕ` (a pixel value is an abstract RGBA word).
  Only pixels at coordinates below the width/height are meaningful; all
  statements about pixel content quantify inside those bounds.
* JavaScript numbers carrying parameter values are modelled as `ℚ`
  (`parseFloat` results; `NaN` is modelled as `Option.none`).  Assigning a
  non-negative fractional number to `canvas.width` truncates it
  (WebIDL `unsigned long` conversion), modelled by `Nat.floor`.
* `ctx.drawImage` with equal source and destination rectangle sizes copies
  the source rectangle, clipped to the source bitmap, over the destination;
  the scaling `drawImage` of the Scaler stage is modelled as deterministic
  nearest-neighbour resampling (the spec allows any deterministic
  resampling; at factor 1 it is the identity, as in the browser).
* The `for (let i = 0; i < q; i++)` loops run over `List.range`; the
  iteration count of such a loop with a rational bound `q` is `⌈q⌉₊`
  (proved where a claim depends on it).
-/

/-- A raster image: width, height and a total pixel function. -/
@[ext] structure Img where
  w : ℕ
  h : ℕ
  pix : ℕ → ℕ → ℕ

/-- The opaque-white RGBA word used by `createCanvas`'s `fillRect`. -/
def white : ℕ := 4294967295

/-- `createCanvas` (ImageEditor.tsx lines 79-89): a fresh canvas of the given
size, filled opaque white. -/
def createCanvas (w h : ℕ) : Img := ⟨w, h, fun _ _ => white⟩

/-- The 9-argument `ctx.drawImage(src, sx, sy, sw, sh, dx, dy, sw, sh)` with
equal source and destination rectangle sizes: copy the `sw × sh` rectangle of
`src` starting at `(sx, sy)` to position `(dx, dy)` of `dst`, clipped to the
source bitmap; pixels not covered keep the destination value. -/
def drawSub (dst src : Img) (sx sy sw sh dx dy : ℕ) : Img :=
  { w := dst.w, h := dst.h,
    pix := fun x y =>
      if dx ≤ x ∧ x < dx + sw ∧ dy ≤ y ∧ y < dy + sh ∧
          sx + (x - dx) < src.w ∧ sy + (y - dy) < src.h then
        src.pix (sx + (x - dx)) (sy + (y - dy))
      else dst.pix x y }

/-- The 3-argument `ctx.drawImage(src, dx, dy)`: copy all of `src` at
`(dx, dy)`. -/
def drawImageAt (dst src : Img) (dx dy : ℕ) : Img :=
  drawSub dst src 0 0 src.w src.h dx dy

/-- Vertical mirror (top-to-bottom flip) of an image; this is the effect of
`translate(0, (i+1)*h); scale(1, -1); drawImage(img, 0, 0)` on the drawn
image. -/
def flipV (img : Img) : Img :=
  ⟨img.w, img.h, fun x y => img.pix x (img.h - 1 - y)⟩

/-- The scaling `ctx.drawImage(img, 0, 0, newW, newH)` onto a fresh white
canvas, modelled as deterministic nearest-neighbour resampling. -/
def scaleTo (src : Img) (newW newH : ℕ) : Img :=
  ⟨newW, newH, fun x y =>
    if x < newW ∧ y < newH then src.pix (x * src.w / newW) (y * src.h / newH)
    else white⟩

/-- Assignment of a non-negative JavaScript number to `canvas.width` /
`canvas.height` truncates the fractional part (WebIDL `unsigned long`
conversion). -/
def canvasDim (q : ℚ) : ℕ := ⌊q⌋₊

/-- `scaledWidth = img.width * scale` (ImageEditor.tsx line 100), kept as the
exact rational the JavaScript number holds. -/
def scaledWidthQ (img : Img) (scale : ℚ) : ℚ := (img.w : ℚ) * scale

/-- Stage 1 (Scaler), ImageEditor.tsx lines 104-109: a canvas of width
`scaledWidth` (truncated) and the source height, with the source drawn scaled
onto it. -/
def scaledCanvas (img : Img) (scale : ℚ) : Img :=
  scaleTo img (canvasDim (scaledWidthQ img scale)) img.h

/-- `sliceWidth = Math.floor(scaledWidth / numSplits)` (ImageEditor.tsx
line 101). -/
def theSliceWidth (img : Img) (scale numSplits : ℚ) : ℕ :=
  ⌊scaledWidthQ img scale / numSplits⌋₊

/-- Number of iterations of `for (let i = 0; i < q; i++)` for a positive
rational bound `q`. -/
def numIters (q : ℚ) : ℕ := ⌈q⌉₊

/-- Stage 2 (Slicer) applied to an already-scaled image: slice `i` is a fresh
white canvas of size `sW × scaled.h` with the rectangle of `scaled` starting
at column `i * sW` drawn at the origin (ImageEditor.tsx lines 112-132). -/
def slicer (scaled : Img) (numSplits : ℚ) (sW : ℕ) : List Img :=
  (List.range (numIters numSplits)).map (fun i =>
    drawSub (createCanvas sW scaled.h) scaled (i * sW) 0 sW scaled.h 0 0)

/-- The slices produced by the pipeline for a source image and parameters. -/
def theSlices (img : Img) (scale numSplits : ℚ) : List Img :=
  slicer (scaledCanvas img scale) numSplits (theSliceWidth img scale numSplits)

/-- One draw of the vertical-merge loop (ImageEditor.tsx lines 144-161):
slice `p.2` at index `p.1` is drawn at vertical offset `p.1 * h`, vertically
mirrored when the index is odd (`translate(0, (i+1)*h); scale(1, -1)`). -/
def drawSliceStep (h : ℕ) (c : Img) (p : ℕ × Img) : Img :=
  if p.1 % 2 = 1 then drawImageAt c (flipV p.2) 0 (p.1 * h)
  else drawImageAt c p.2 0 (p.1 * h)

/-- Stage 3 (Vertical Compositor) on an arbitrary slice list: a white canvas
of size `sliceW × (h * slices.length)` (`totalHeight = img.height *
slices.length`, ImageEditor.tsx lines 135-139) with every indexed slice drawn
by `drawSliceStep`. -/
def compositeVertical (sliceW h : ℕ) (slices : List Img) : Img :=
  slices.enum.foldl (drawSliceStep h) (createCanvas sliceW (h * slices.length))

/-- The vertical composite the pipeline builds from the source image. -/
def verticalComposite (img : Img) (scale numSplits : ℚ) : Img :=
  compositeVertical (theSliceWidth img scale numSplits) img.h
    (theSlices img scale numSplits)

/-- As `verticalComposite`, but with the indexed slices drawn in an arbitrary
order `l` (the slice draws run under `Promise.all`, so their completion order
is not fixed by the code). -/
def verticalCompositeOrdered (img : Img) (scale numSplits : ℚ)
    (l : List (ℕ × Img)) : Img :=
  l.foldl (drawSliceStep img.h)
    (createCanvas (theSliceWidth img scale numSplits)
      (img.h * (theSlices img scale numSplits).length))

/-- Stage 4 (Horizontal Repeater) on an arbitrary composite: a white canvas of
width `outW` and the composite's height, with the composite drawn at
horizontal offsets `0, stride, 2*stride, …` (ImageEditor.tsx lines 166-175).
-/
def repeatHorizontal (composite : Img) (stride count outW : ℕ) : Img :=
  (List.range count).foldl (fun c i => drawImageAt c composite (i * stride) 0)
    (createCanvas outW composite.h)

/-- The full pipeline of `processAndDownload`: Scaler → Slicer → Vertical
Compositor → Horizontal Repeater.  The final canvas has width
`sliceWidth * horizontalRepeat` (truncated on assignment) and height
`totalHeight`. -/
def finalImage (img : Img) (scale numSplits hrepeat : ℚ) : Img :=
  repeatHorizontal (verticalComposite img scale numSplits)
    (theSliceWidth img scale numSplits) (numIters hrepeat)
    (canvasDim ((theSliceWidth img scale numSplits : ℚ) * hrepeat))

/-- Canonical serialization of the final canvas (`toDataURL` delegated to a
deterministic encoder): dimensions followed by the row-major pixel buffer. -/
def encodeImg (img : Img) : List ℕ :=
  img.w :: img.h ::
    ((List.range img.h).map (fun y =>
      (List.range img.w).map (fun x => img.pix x y))).flatten

/-- The encoded output of one invocation of the pipeline. -/
def processEncoded (img : Img) (scale numSplits hrepeat : ℚ) : List ℕ :=
  encodeImg (finalImage img scale numSplits hrepeat)

/-- The encoded output of one invocation in which the slice draws of the
vertical-merge stage completed in the order given by `l`. -/
def processEncodedWithOrder (img : Img) (scale numSplits hrepeat : ℚ)
    (l : List (ℕ × Img)) : List ℕ :=
  encodeImg (repeatHorizontal (verticalCompositeOrdered img scale numSplits l)
    (theSliceWidth img scale numSplits) (numIters hrepeat)
    (canvasDim ((theSliceWidth img scale numSplits : ℚ) * hrepeat)))

/-- The three fields of the editor state (`EditorState`,
ImageEditor.tsx lines 8-12). -/
inductive ParamId where
  | scale
  | numSplits
  | horizontalRepeat
deriving DecidableEq

/-- `EditorState`: the three numeric parameters as JavaScript numbers. -/
structure EditorState where
  scale : ℚ
  numSplits : ℚ
  horizontalRepeat : ℚ
deriving DecidableEq

/-- Read one field of the editor state. -/
def getParam (st : EditorState) : ParamId → ℚ
  | ParamId.scale => st.scale
  | ParamId.numSplits => st.numSplits
  | ParamId.horizontalRepeat => st.horizontalRepeat

/-- `{ ...prev, [id]: v }`: replace the single field named `id`. -/
def setParam (st : EditorState) (id : ParamId) (v : ℚ) : EditorState :=
  match id with
  | ParamId.scale => { st with scale := v }
  | ParamId.numSplits => { st with numSplits := v }
  | ParamId.horizontalRepeat => { st with horizontalRepeat := v }

/-- `numValue > 0 ? numValue : 1` applied to a `parseFloat` result;
`parseFloat` returning `NaN` is modelled as `none`, and every comparison with
`NaN` is false, so `NaN` also yields 1. -/
def clampParam : Option ℚ → ℚ
  | none => 1
  | some q => if 0 < q then q else 1

/-- `handleInputChange` (ImageEditor.tsx lines 68-76): store the clamped
parsed value into the field named by the event target's id. -/
def handleInputChange (st : EditorState) (id : ParamId) (parsed : Option ℚ) :
    EditorState :=
  setParam st id (clampParam parsed)

/-- Concrete source image used to evaluate the degenerate-parameter case:
a 4 × 4 bitmap. -/
def degenImg : Img := ⟨4, 4, fun _ _ => 0⟩

/-- Concrete 2 × 2 source image with distinguishable pixels. -/
def imgA : Img := ⟨2, 2, fun x y => 1 + x + 10 * y⟩

/-- Concrete 3 × 2 source image. -/
def imgB : Img := ⟨3, 2, fun x y => x + 10 * y⟩

/-- Concrete 1 × 2 slice. -/
def sliceA : Img := ⟨1, 2, fun _ y => 10 + y⟩

/-- Concrete 1 × 2 slice. -/
def sliceB : Img := ⟨1, 2, fun _ y => 20 + y⟩

/-- Concrete 5 × 2 scaled image (width not divisible by 2). -/
def scaledW5 : Img := ⟨5, 2, fun x y => x + 10 * y⟩

/-- Concrete 2 × 3 composite image. -/
def compC5 : Img := ⟨2, 3, fun x y => x + 10 * y⟩

/-! ### Helper lemmas about the drawing primitives -/

theorem drawSub_w (dst src : Img) (sx sy sw sh dx dy : ℕ) :
    (drawSub dst src sx sy sw sh dx dy).w = dst.w := rfl

theorem drawSub_h (dst src : Img) (sx sy sw sh dx dy : ℕ) :
    (drawSub dst src sx sy sw sh dx dy).h = dst.h := rfl

theorem drawImageAt_w (dst src : Img) (dx dy : ℕ) :
    (drawImageAt dst src dx dy).w = dst.w := rfl

theorem drawImageAt_h (dst src : Img) (dx dy : ℕ) :
    (drawImageAt dst src dx dy).h = dst.h := rfl

theorem flipV_w (img : Img) : (flipV img).w = img.w := rfl

theorem flipV_h (img : Img) : (flipV img).h = img.h := rfl

theorem drawImageAt_pix_in (c s : Img) (dx dy x y : ℕ)
    (hx1 : dx ≤ x) (hx2 : x < dx + s.w) (hy1 : dy ≤ y) (hy2 : y < dy + s.h) :
    (drawImageAt c s dx dy).pix x y = s.pix (x - dx) (y - dy) := by
  rw [drawImageAt, drawSub]
  simp only
  rw [if_pos ⟨hx1, hx2, hy1, hy2, by omega, by omega⟩]
  simp

theorem drawImageAt_pix_outRow (c s : Img) (dx dy x y : ℕ)
    (hy : ¬ (dy ≤ y ∧ y < dy + s.h)) :
    (drawImageAt c s dx dy).pix x y = c.pix x y := by
  rw [drawImageAt, drawSub]
  simp only
  rw [if_neg]
  rintro ⟨-, -, h3, h4, -, -⟩
  exact hy ⟨h3, h4⟩

theorem drawImageAt_pix_outCol (c s : Img) (dx dy x y : ℕ)
    (hx : ¬ (dx ≤ x ∧ x < dx + s.w)) :
    (drawImageAt c s dx dy).pix x y = c.pix x y := by
  rw [drawImageAt, drawSub]
  simp only
  rw [if_neg]
  rintro ⟨h1, h2, -, -, -, -⟩
  exact hx ⟨h1, h2⟩

theorem band_index_eq {i j h r : ℕ} (hr : r < h)
    (h1 : j * h ≤ i * h + r) (h2 : i * h + r < j * h + h) : j = i := by
  have hj : j * h < (i + 1) * h := by
    calc j * h ≤ i * h + r := h1
    _ < i * h + h := by omega
    _ = (i + 1) * h := by ring
  have hi : i * h < (j + 1) * h := by
    calc i * h ≤ i * h + r := Nat.le_add_right _ _
    _ < j * h + h := h2
    _ = (j + 1) * h := by ring
  have hj' := lt_of_mul_lt_mul_right hj (Nat.zero_le h)
  have hi' := lt_of_mul_lt_mul_right hi (Nat.zero_le h)
  omega

theorem bands_disjoint {i j h : ℕ} (hne : i ≠ j) (y : ℕ) :
    ¬ (i * h ≤ y ∧ y < i * h + h ∧ j * h ≤ y ∧ y < j * h + h) := by
  rintro ⟨h1, h2, h3, h4⟩
  have hr : y - i * h < h := by omega
  have h3' : j * h ≤ i * h + (y - i * h) := by omega
  have h4' : i * h + (y - i * h) < j * h + h := by omega
  exact hne (band_index_eq hr h3' h4').symm

/-! ### Helper lemmas about the vertical-merge fold -/

theorem drawSliceStep_pix_out (h : ℕ) (c : Img) (p : ℕ × Img) (hp : p.2.h = h)
    (x y : ℕ) (hy : ¬ (p.1 * h ≤ y ∧ y < p.1 * h + h)) :
    (drawSliceStep h c p).pix x y = c.pix x y := by
  rw [drawSliceStep]
  split
  · exact drawImageAt_pix_outRow _ _ _ _ _ _ (by rw [flipV_h, hp]; exact hy)
  · exact drawImageAt_pix_outRow _ _ _ _ _ _ (by rw [hp]; exact hy)

theorem drawSliceStep_pix_in (h : ℕ) (c : Img) (p : ℕ × Img)
    (hph : p.2.h = h) (x r : ℕ) (hx : x < p.2.w) (hr : r < h) :
    (drawSliceStep h c p).pix x (p.1 * h + r) =
      if p.1 % 2 = 1 then p.2.pix x (h - 1 - r) else p.2.pix x r := by
  rw [drawSliceStep]
  by_cases hpar : p.1 % 2 = 1
  · rw [if_pos hpar, if_pos hpar,
      drawImageAt_pix_in _ _ 0 (p.1 * h) x (p.1 * h + r) (Nat.zero_le x)
        (by rw [flipV_w]; omega) (Nat.le_add_right _ _) (by rw [flipV_h, hph]; omega)]
    rw [flipV]
    simp only [Nat.sub_zero, Nat.add_sub_cancel_left, hph]
  · rw [if_neg hpar, if_neg hpar,
      drawImageAt_pix_in _ _ 0 (p.1 * h) x (p.1 * h + r) (Nat.zero_le x)
        (by omega) (Nat.le_add_right _ _) (by rw [hph]; omega)]
    simp

theorem foldl_drawSliceStep_w (h : ℕ) (l : List (ℕ × Img)) (c : Img) :
    (l.foldl (drawSliceStep h) c).w = c.w := by
  induction l generalizing c with
  | nil => rfl
  | cons p l ih =>
    rw [List.foldl_cons, ih]
    rw [drawSliceStep]
    split <;> rfl

theorem foldl_drawSliceStep_h (h : ℕ) (l : List (ℕ × Img)) (c : Img) :
    (l.foldl (drawSliceStep h) c).h = c.h := by
  induction l generalizing c with
  | nil => rfl
  | cons p l ih =>
    rw [List.foldl_cons, ih]
    rw [drawSliceStep]
    split <;> rfl

theorem foldl_drawSliceStep_pix_out (h : ℕ) (l : List (ℕ × Img)) (c : Img)
    (x y : ℕ) (hl : ∀ p ∈ l, p.2.h = h)
    (hy : ∀ p ∈ l, ¬ (p.1 * h ≤ y ∧ y < p.1 * h + h)) :
    (l.foldl (drawSliceStep h) c).pix x y = c.pix x y := by
  induction l generalizing c with
  | nil => rfl
  | cons q l ih =>
    rw [List.foldl_cons,
      ih _ (fun p hp => hl p (List.mem_cons_of_mem _ hp))
        (fun p hp => hy p (List.mem_cons_of_mem _ hp))]
    exact drawSliceStep_pix_out h c q (hl q (List.mem_cons_self _ _)) x y
      (hy q (List.mem_cons_self _ _))

theorem foldl_drawSliceStep_pix_band (h sliceW : ℕ) (l : List (ℕ × Img))
    (hl : ∀ p ∈ l, p.2.w = sliceW ∧ p.2.h = h)
    (hnd : (l.map Prod.fst).Nodup)
    (i : ℕ) (s : Img) (hmem : (i, s) ∈ l)
    (x r : ℕ) (hx : x < sliceW) (hr : r < h) (c : Img) :
    (l.foldl (drawSliceStep h) c).pix x (i * h + r) =
      if i % 2 = 1 then s.pix x (h - 1 - r) else s.pix x r := by
  induction l generalizing c with
  | nil => cases hmem
  | cons q l ih =>
    rw [List.foldl_cons]
    rcases List.mem_cons.mp hmem with heq | hmem'
    · have hi_not : i ∉ l.map Prod.fst := by
        have := (List.nodup_cons.mp hnd).1
        rw [← heq] at this
        exact this
      rw [foldl_drawSliceStep_pix_out h l _ x (i * h + r)
        (fun p hp => (hl p (List.mem_cons_of_mem _ hp)).2) ?_]
      · have hq := hl q (List.mem_cons_self _ _)
        rw [← heq] at hq ⊢
        exact drawSliceStep_pix_in h c (i, s) hq.2 x r (hq.1 ▸ hx) hr
      · intro p hp hband
        have hpne : p.1 ≠ i := by
          intro he
          exact hi_not (he ▸ List.mem_map_of_mem Prod.fst hp)
        exact hpne (band_index_eq hr hband.1 hband.2)
    · exact ih (fun p hp => hl p (List.mem_cons_of_mem _ hp))
        (List.nodup_cons.mp hnd).2 hmem' _

/-! ### Helper lemmas about the horizontal-repeat fold -/

theorem foldl_drawRepeat_w (v : Img) (stride : ℕ) (l : List ℕ) (c : Img) :
    (l.foldl (fun c i => drawImageAt c v (i * stride) 0) c).w = c.w := by
  induction l generalizing c with
  | nil => rfl
  | cons j l ih => rw [List.foldl_cons, ih]; rfl

theorem foldl_drawRepeat_h (v : Img) (stride : ℕ) (l : List ℕ) (c : Img) :
    (l.foldl (fun c i => drawImageAt c v (i * stride) 0) c).h = c.h := by
  induction l generalizing c with
  | nil => rfl
  | cons j l ih => rw [List.foldl_cons, ih]; rfl

theorem foldl_drawRepeat_pix_out (v : Img) (stride : ℕ) (l : List ℕ) (c : Img)
    (x y : ℕ) (hx : ∀ j ∈ l, ¬ (j * stride ≤ x ∧ x < j * stride + v.w)) :
    (l.foldl (fun c i => drawImageAt c v (i * stride) 0) c).pix x y = c.pix x y := by
  induction l generalizing c with
  | nil => rfl
  | cons j l ih =>
    rw [List.foldl_cons, ih _ (fun j' hj' => hx j' (List.mem_cons_of_mem _ hj'))]
    exact drawImageAt_pix_outCol _ _ _ _ _ _ (hx j (List.mem_cons_self _ _))

theorem foldl_drawRepeat_pix_band (v : Img) (l : List ℕ) (hnd : l.Nodup)
    (j : ℕ) (hj : j ∈ l) (x y : ℕ) (hx : x < v.w) (hy : y < v.h) (c : Img) :
    (l.foldl (fun c i => drawImageAt c v (i * v.w) 0) c).pix (j * v.w + x) y
      = v.pix x y := by
  induction l generalizing c with
  | nil => cases hj
  | cons q l ih =>
    rw [List.foldl_cons]
    rcases List.mem_cons.mp hj with heq | hj'
    · subst heq
      rw [foldl_drawRepeat_pix_out v v.w l _ (j * v.w + x) y ?_]
      · rw [drawImageAt_pix_in _ _ (j * v.w) 0 _ y (Nat.le_add_right _ _)
          (by omega) (Nat.zero_le y) (by omega)]
        simp
      · intro j' hj'' hband
        have : j' ≠ j := by
          intro he
          subst he
          exact (List.nodup_cons.mp hnd).1 hj''
        exact this (band_index_eq hx hband.1 hband.2)
    · exact ih (List.nodup_cons.mp hnd).2 hj' _

/-! ### Helper lemmas about the slice list and enumeration -/

theorem theSlices_dims (img : Img) (scale numSplits : ℚ) :
    ∀ s ∈ theSlices img scale numSplits,
      s.w = theSliceWidth img scale numSplits ∧ s.h = img.h := by
  intro s hs
  rw [theSlices, slicer] at hs
  obtain ⟨i, _, rfl⟩ := List.mem_map.mp hs
  exact ⟨rfl, rfl⟩

theorem theSlices_length (img : Img) (scale numSplits : ℚ) :
    (theSlices img scale numSplits).length = numIters numSplits := by
  rw [theSlices, slicer, List.length_map, List.length_range]

theorem snd_mem_of_mem_enum {l : List Img} {p : ℕ × Img} (hp : p ∈ l.enum) :
    p.2 ∈ l := by
  rw [List.mem_enum_iff_getElem?] at hp
  exact List.getElem?_mem hp

theorem enum_fst_injective {l : List Img} {p q : ℕ × Img}
    (hp : p ∈ l.enum) (hq : q ∈ l.enum) (hfst : p.1 = q.1) : p = q := by
  rw [List.mem_enum_iff_getElem?] at hp hq
  rw [hfst] at hp
  have h2 : p.2 = q.2 := Option.some.inj (hp.symm.trans hq)
  exact Prod.ext hfst h2

/-! ### Claims C6 and C9: the input-change handler -/

theorem getParam_setParam_same (st : EditorState) (id : ParamId) (v : ℚ) :
    getParam (setParam st id v) id = v := by
  cases id <;> rfl

/-- Claim C6: for every string supplied to a parameter input field, if the
parsed numeric value is non-positive or not a number, the stored value is 1;
otherwise the parsed value itself is stored; and this applies uniformly to
all three parameters (the handler is one generic function over the field
id). -/
theorem c6_clamp_on_input (st : EditorState) (id : ParamId) (parsed : Option ℚ) :
    getParam (handleInputChange st id parsed) id = clampParam parsed ∧
    (parsed = none → getParam (handleInputChange st id parsed) id = 1) ∧
    (∀ q, parsed = some q → q ≤ 0 →
      getParam (handleInputChange st id parsed) id = 1) ∧
    (∀ q, parsed = some q → 0 < q →
      getParam (handleInputChange st id parsed) id = q) := by
  refine ⟨getParam_setParam_same st id _, ?_, ?_, ?_⟩
  · rintro rfl
    rw [handleInputChange, getParam_setParam_same, clampParam]
  · rintro q rfl hq
    rw [handleInputChange, getParam_setParam_same, clampParam]
    rw [if_neg (not_lt.mpr hq)]
  · rintro q rfl hq
    rw [handleInputChange, getParam_setParam_same, clampParam]
    rw [if_pos hq]

/-- Witness for C6 at a concrete input: the state starts at the defaults
`{scale := 6, numSplits := 1, horizontalRepeat := 1}` and the user types a
value parsing to `-2` into the `numSplits` field; the stored value is 1. -/
theorem c6_clamp_on_input_witness :
    getParam (handleInputChange ⟨6, 1, 1⟩ ParamId.numSplits (some (-2)))
      ParamId.numSplits = 1 :=
  (c6_clamp_on_input ⟨6, 1, 1⟩ ParamId.numSplits (some (-2))).2.2.1 (-2) rfl
    (by norm_num)

/-- Claim C9: a parameter-change event updates only the single editor-state
field named by the event target's id; the other two fields keep their former
values. -/
theorem c9_frame_only_named_field (st : EditorState) (id : ParamId)
    (parsed : Option ℚ) (id' : ParamId) (hne : id' ≠ id) :
    getParam (handleInputChange st id parsed) id' = getParam st id' := by
  cases id <;> cases id' <;> first
    | exact absurd rfl hne
    | rfl

/-- Witness for C9 at a concrete input: changing `scale` leaves `numSplits`
at its previous value. -/
theorem c9_frame_only_named_field_witness :
    ParamId.numSplits ≠ ParamId.scale ∧
    getParam (handleInputChange ⟨6, 1, 1⟩ ParamId.scale (some 2))
      ParamId.numSplits = getParam ⟨6, 1, 1⟩ ParamId.numSplits :=
  ⟨by decide, c9_frame_only_named_field ⟨6, 1, 1⟩ ParamId.scale (some 2)
    ParamId.numSplits (by decide)⟩

/-! ### Claim C3: the vertical compositor -/

/-- Claim C3: for every SliceSet of `n` slices of height `h` (and width
`sliceW`), the vertical compositor places slice `i` at vertical offset
`i * h` in an output of height `h * n`; every slice at odd index is
vertically mirrored before placement and every slice at even index is placed
unmodified. -/
theorem c3_vertical_compositor_alternation (slices : List Img) (sliceW h : ℕ)
    (hdim : ∀ s ∈ slices, s.w = sliceW ∧ s.h = h) :
    (compositeVertical sliceW h slices).w = sliceW ∧
    (compositeVertical sliceW h slices).h = h * slices.length ∧
    ∀ i, i < slices.length → ∀ x r, x < sliceW → r < h →
      (compositeVertical sliceW h slices).pix x (i * h + r) =
        if i % 2 = 1 then
          (slices.getD i (createCanvas 0 0)).pix x (h - 1 - r)
        else (slices.getD i (createCanvas 0 0)).pix x r := by
  refine ⟨?_, ?_, ?_⟩
  · rw [compositeVertical, foldl_drawSliceStep_w]; rfl
  · rw [compositeVertical, foldl_drawSliceStep_h]; rfl
  · intro i hi x r hx hr
    have hsome : slices[i]? = some slices[i] := List.getElem?_eq_getElem hi
    have hmem : (i, slices.getD i (createCanvas 0 0)) ∈ slices.enum := by
      rw [List.mem_enum_iff_getElem?]
      simp [List.getD_eq_getElem?_getD, hsome]
    rw [compositeVertical]
    exact foldl_drawSliceStep_pix_band h sliceW slices.enum
      (fun p hp => hdim p.2 (snd_mem_of_mem_enum hp))
      (List.nodup_enum_map_fst slices) i _ hmem x r hx hr _

/-- Witness for C3 at a concrete input: two 1 × 2 slices; the pixel of the
composite in the second (odd, mirrored) band at relative row 1 comes from
row 0 of slice 1. -/
theorem c3_vertical_compositor_alternation_witness :
    (∀ s ∈ [sliceA, sliceB], s.w = 1 ∧ s.h = 2) ∧
    (compositeVertical 1 2 [sliceA, sliceB]).pix 0 (1 * 2 + 1) =
      (if 1 % 2 = 1 then
        ([sliceA, sliceB].getD 1 (createCanvas 0 0)).pix 0 (2 - 1 - 1)
      else ([sliceA, sliceB].getD 1 (createCanvas 0 0)).pix 0 1) := by
  have hd : ∀ s ∈ [sliceA, sliceB], s.w = 1 ∧ s.h = 2 := by
    rintro s hs
    fin_cases hs <;> exact ⟨rfl, rfl⟩
  exact ⟨hd, (c3_vertical_compositor_alternation [sliceA, sliceB] 1 2 hd).2.2
    1 (by norm_num) 0 1 (by norm_num) (by norm_num)⟩

/-! ### Claim C4: the slicer -/

/-- Claim C4: for a scaled image of width `W` and an integer `numSplits`
`n ≥ 1` with `W / n ≥ 1`, the slicer produces exactly `n` slices of width
`sliceWidth = W / n` and full height; slice `i` reads source columns
`[i * sliceWidth, (i+1) * sliceWidth)`, and every covered column index is
below `n * sliceWidth`, so remainder columns (at index `≥ n * sliceWidth`)
appear in no slice. -/
theorem c4_slicer_partition (scaled : Img) (n : ℕ) (hn : 1 ≤ n)
    (hsw : 1 ≤ scaled.w / n) :
    (slicer scaled (n : ℚ) (scaled.w / n)).length = n ∧
    (∀ s ∈ slicer scaled (n : ℚ) (scaled.w / n),
      s.w = scaled.w / n ∧ s.h = scaled.h) ∧
    (∀ i x y, i < n → x < scaled.w / n → y < scaled.h →
      ((slicer scaled (n : ℚ) (scaled.w / n)).getD i (createCanvas 0 0)).pix x y
        = scaled.pix (i * (scaled.w / n) + x) y) ∧
    ∀ c, n * (scaled.w / n) ≤ c → ∀ i x, i < n → x < scaled.w / n →
      i * (scaled.w / n) + x ≠ c := by
  have hlen : numIters (n : ℚ) = n := by rw [numIters, Nat.ceil_natCast]
  have hcov : ∀ i x, i < n → x < scaled.w / n →
      i * (scaled.w / n) + x < n * (scaled.w / n) := by
    intro i x hi hx
    calc i * (scaled.w / n) + x < i * (scaled.w / n) + scaled.w / n :=
      Nat.add_lt_add_left hx _
    _ = (i + 1) * (scaled.w / n) := (Nat.succ_mul i _).symm
    _ ≤ n * (scaled.w / n) := Nat.mul_le_mul_right _ hi
  refine ⟨?_, ?_, ?_, ?_⟩
  · rw [slicer, List.length_map, List.length_range, hlen]
  · intro s hs
    rw [slicer] at hs
    obtain ⟨i, _, rfl⟩ := List.mem_map.mp hs
    exact ⟨rfl, rfl⟩
  · intro i x y hi hx hy
    have hi' : i < numIters (n : ℚ) := by rw [hlen]; exact hi
    have hgd : (slicer scaled (n : ℚ) (scaled.w / n)).getD i (createCanvas 0 0)
        = drawSub (createCanvas (scaled.w / n) scaled.h) scaled
            (i * (scaled.w / n)) 0 (scaled.w / n) scaled.h 0 0 := by
      rw [slicer]
      simp [List.getD_eq_getElem?_getD, List.getElem?_range hi']
    have hwcov : i * (scaled.w / n) + x < scaled.w := by
      calc i * (scaled.w / n) + x < n * (scaled.w / n) := hcov i x hi hx
      _ ≤ scaled.w := by rw [Nat.mul_comm]; exact Nat.div_mul_le_self _ _
    rw [hgd, drawSub]
    simp only
    rw [if_pos ⟨Nat.zero_le x, by omega, Nat.zero_le y, by omega,
      by simpa using hwcov, by simpa using hy⟩]
    simp
  · intro c hc i x hi hx
    exact Nat.ne_of_lt (lt_of_lt_of_le (hcov i x hi hx) hc)

/-- Witness for C4 at a concrete input: a 5 × 2 scaled image split into 2
slices of width 2; the pixel `(1, 1)` of slice 1 is source column
`1 * 2 + 1 = 3`. -/
theorem c4_slicer_partition_witness :
    (1 ≤ 2 ∧ 1 ≤ scaledW5.w / 2) ∧
    ((slicer scaledW5 (2 : ℚ) (scaledW5.w / 2)).getD 1 (createCanvas 0 0)).pix 1 1
      = scaledW5.pix (1 * (scaledW5.w / 2) + 1) 1 :=
  ⟨⟨by norm_num, by norm_num [scaledW5]⟩,
    (c4_slicer_partition scaledW5 2 (by norm_num) (by norm_num [scaledW5])).2.2.1
      1 1 1 (by norm_num) (by norm_num [scaledW5]) (by norm_num [scaledW5])⟩

/-! ### Claim C5: the horizontal repeater -/

/-- Claim C5: for every composite image of width `w` and height `h` and
every repeat count `c ≥ 1`, the horizontal repeater produces an image of
width `w * c` and height `h` in which the composite is copied unmodified at
horizontal offsets `0, w, …, (c-1) * w`; in particular `c = 1` yields an
unchanged copy of the composite. -/
theorem c5_horizontal_repeater (composite : Img) (c : ℕ) (hc : 1 ≤ c) :
    (repeatHorizontal composite composite.w c
      (canvasDim ((composite.w : ℚ) * c))).w = composite.w * c ∧
    (repeatHorizontal composite composite.w c
      (canvasDim ((composite.w : ℚ) * c))).h = composite.h ∧
    (∀ j x y, j < c → x < composite.w → y < composite.h →
      (repeatHorizontal composite composite.w c
        (canvasDim ((composite.w : ℚ) * c))).pix (j * composite.w + x) y
        = composite.pix x y) ∧
    (c = 1 → ∀ x y, x < composite.w → y < composite.h →
      (repeatHorizontal composite composite.w c
        (canvasDim ((composite.w : ℚ) * c))).pix x y = composite.pix x y) := by
  have hband : ∀ j x y, j < c → x < composite.w → y < composite.h →
      (repeatHorizontal composite composite.w c
        (canvasDim ((composite.w : ℚ) * c))).pix (j * composite.w + x) y
        = composite.pix x y := by
    intro j x y hj hx hy
    rw [repeatHorizontal]
    exact foldl_drawRepeat_pix_band composite (List.range c) (List.nodup_range _)
      j (List.mem_range.mpr hj) x y hx hy _
  refine ⟨?_, ?_, hband, ?_⟩
  · rw [repeatHorizontal, foldl_drawRepeat_w]
    show canvasDim ((composite.w : ℚ) * c) = composite.w * c
    rw [canvasDim,
      show ((composite.w : ℚ) * c) = ((composite.w * c : ℕ) : ℚ) by push_cast; ring]
    exact Nat.floor_natCast _
  · rw [repeatHorizontal, foldl_drawRepeat_h]; rfl
  · rintro rfl x y hx hy
    have := hband 0 x y (by norm_num) hx hy
    simpa using this

/-- Witness for C5 at a concrete input: a 2 × 3 composite repeated twice;
the pixel at `(1 * 2 + 1, 2)` of the output equals pixel `(1, 2)` of the
composite. -/
theorem c5_horizontal_repeater_witness :
    1 ≤ 2 ∧
    (repeatHorizontal compC5 compC5.w 2
      (canvasDim ((compC5.w : ℚ) * 2))).pix (1 * compC5.w + 1) 2
      = compC5.pix 1 2 :=
  ⟨by norm_num, (c5_horizontal_repeater compC5 2 (by norm_num)).2.2.1 1 1 2
    (by norm_num) (by norm_num [compC5]) (by norm_num [compC5])⟩

/-! ### Claim C1: the degenerate zero-width case -/

/-- Claim C1 concerns the degenerate case `numSplits > scaledWidth`.  The
code raises no error there: evaluated on a 4 × 4 source with `scale = 1`,
`numSplits = 5`, `horizontalRepeat = 1`, the pipeline computes
`sliceWidth = 0`, still produces 5 slices, all of width 0, and emits a final
output buffer of width 0 — contrary to the claimed `InvalidParameter`
error. -/
theorem c1_zero_width_not_rejected :
    theSliceWidth degenImg 1 5 = 0 ∧
    (theSlices degenImg 1 5).length = 5 ∧
    (theSlices degenImg 1 5).map Img.w = [0, 0, 0, 0, 0] ∧
    (finalImage degenImg 1 5 1).w = 0 := by
  have hsw : theSliceWidth degenImg 1 5 = 0 := by
    rw [theSliceWidth, scaledWidthQ]
    rw [show ((degenImg.w : ℚ) * 1 / 5) = 4 / 5 by norm_num [degenImg]]
    rw [Nat.floor_eq_zero]
    norm_num
  have hlen5 : numIters (5 : ℚ) = 5 := by
    rw [numIters]
    norm_num
  refine ⟨hsw, ?_, ?_, ?_⟩
  · rw [theSlices_length, hlen5]
  · rw [theSlices, slicer, hsw, hlen5]
    rfl
  · rw [finalImage, repeatHorizontal, foldl_drawRepeat_w]
    show canvasDim ((theSliceWidth degenImg 1 5 : ℚ) * 1) = 0
    rw [hsw, canvasDim]
    norm_num

/-! ### Claim C2: the scaler dimensions -/

/-- Claim C2: for a source image of width `w ≥ 1` and a positive scale
factor `f`, the scaler stage produces an image of width `⌊w * f⌋` and the
source height (the height is never scaled). -/
theorem c2_scaler_dims (img : Img) (f : ℚ) (hw : 1 ≤ img.w) (hf : 0 < f) :
    (scaledCanvas img f).w = ⌊(img.w : ℚ) * f⌋₊ ∧
    (scaledCanvas img f).h = img.h :=
  ⟨rfl, rfl⟩

/-- Witness for C2 at a concrete input: a 3 × 2 source scaled by 3/2. -/
theorem c2_scaler_dims_witness :
    (1 ≤ imgB.w ∧ 0 < (3 / 2 : ℚ)) ∧
    ((scaledCanvas imgB (3 / 2)).w = ⌊(imgB.w : ℚ) * (3 / 2)⌋₊ ∧
      (scaledCanvas imgB (3 / 2)).h = imgB.h) :=
  ⟨⟨by norm_num [imgB], by norm_num⟩,
    c2_scaler_dims imgB (3 / 2) (by norm_num [imgB]) (by norm_num)⟩

/-! ### Claim C7: identity parameters -/

/-- Claim C7: running the pipeline with `numSplits = 1`, `scale = 1`,
`horizontalRepeat = 1` on a `W × H` source produces a `W × H` output whose
pixels equal the source's (index 0 is never mirrored, so no flip occurs). -/
theorem c7_identity_parameters (img : Img) :
    (finalImage img 1 1 1).w = img.w ∧
    (finalImage img 1 1 1).h = img.h ∧
    ∀ x y, x < img.w → y < img.h →
      (finalImage img 1 1 1).pix x y = img.pix x y := by
  have hone : numIters (1 : ℚ) = 1 := by rw [numIters]; exact Nat.ceil_one
  have hsq : scaledWidthQ img 1 = (img.w : ℚ) := by rw [scaledWidthQ, mul_one]
  have hcd : canvasDim (scaledWidthQ img 1) = img.w := by
    rw [hsq, canvasDim, Nat.floor_natCast]
  have hsw : theSliceWidth img 1 1 = img.w := by
    rw [theSliceWidth, hsq, div_one, Nat.floor_natCast]
  have hscaled_w : (scaledCanvas img 1).w = img.w := hcd
  have hscaled_pix : ∀ x y, x < img.w → y < img.h →
      (scaledCanvas img 1).pix x y = img.pix x y := by
    intro x y hx hy
    rw [scaledCanvas, scaleTo]
    simp only
    rw [hcd, if_pos ⟨hx, hy⟩,
      Nat.mul_div_cancel x (lt_of_le_of_lt (Nat.zero_le x) hx),
      Nat.mul_div_cancel y (lt_of_le_of_lt (Nat.zero_le y) hy)]
  have hgd : (theSlices img 1 1).getD 0 (createCanvas 0 0)
      = drawSub (createCanvas (theSliceWidth img 1 1) (scaledCanvas img 1).h)
          (scaledCanvas img 1) (0 * theSliceWidth img 1 1) 0
          (theSliceWidth img 1 1) (scaledCanvas img 1).h 0 0 := by
    rw [theSlices, slicer]
    have h0 : 0 < numIters (1 : ℚ) := by rw [hone]; norm_num
    simp [List.getD_eq_getElem?_getD, List.getElem?_range h0]
  have hslice_pix : ∀ x y, x < img.w → y < img.h →
      ((theSlices img 1 1).getD 0 (createCanvas 0 0)).pix x y = img.pix x y := by
    intro x y hx hy
    rw [hgd, drawSub]
    simp only [Nat.zero_mul, Nat.sub_zero, Nat.add_zero, Nat.zero_add]
    rw [hscaled_w]
    have hsh : (scaledCanvas img 1).h = img.h := rfl
    rw [hsh, if_pos ⟨Nat.zero_le x, hsw ▸ hx, Nat.zero_le y, hy, hx, hy⟩]
    exact hscaled_pix x y hx hy
  have hlen : (theSlices img 1 1).length = 1 := by rw [theSlices_length, hone]
  have hcomp_w : (verticalComposite img 1 1).w = img.w := by
    rw [verticalComposite, compositeVertical, foldl_drawSliceStep_w]
    exact hsw
  have hcomp_h : (verticalComposite img 1 1).h = img.h := by
    rw [verticalComposite, compositeVertical, foldl_drawSliceStep_h]
    show img.h * (theSlices img 1 1).length = img.h
    rw [hlen, mul_one]
  have hcomp_pix : ∀ x y, x < img.w → y < img.h →
      (verticalComposite img 1 1).pix x y = img.pix x y := by
    intro x y hx hy
    have h0 : 0 < (theSlices img 1 1).length := by rw [hlen]; norm_num
    have hsome : (theSlices img 1 1)[0]? = some (theSlices img 1 1)[0] :=
      List.getElem?_eq_getElem h0
    have hmem : (0, (theSlices img 1 1).getD 0 (createCanvas 0 0))
        ∈ (theSlices img 1 1).enum := by
      rw [List.mem_enum_iff_getElem?]
      simp [List.getD_eq_getElem?_getD, hsome]
    have hband := foldl_drawSliceStep_pix_band img.h (theSliceWidth img 1 1)
      (theSlices img 1 1).enum
      (fun p hp => theSlices_dims img 1 1 p.2 (snd_mem_of_mem_enum hp))
      (List.nodup_enum_map_fst _) 0 _ hmem x y (hsw ▸ hx) hy
      (createCanvas (theSliceWidth img 1 1)
        (img.h * (theSlices img 1 1).length))
    have hv : (verticalComposite img 1 1).pix x y
        = ((theSlices img 1 1).getD 0 (createCanvas 0 0)).pix x y := by
      rw [verticalComposite, compositeVertical]
      simpa using hband
    rw [hv, hslice_pix x y hx hy]
  have houtW : canvasDim ((theSliceWidth img 1 1 : ℚ) * 1) = img.w := by
    rw [mul_one, canvasDim, Nat.floor_natCast, hsw]
  refine ⟨?_, ?_, ?_⟩
  · rw [finalImage, repeatHorizontal, foldl_drawRepeat_w]
    exact houtW
  · rw [finalImage, repeatHorizontal, foldl_drawRepeat_h]
    exact hcomp_h
  · intro x y hx hy
    rw [finalImage, repeatHorizontal, hone,
      show List.range 1 = [0] from rfl, List.foldl_cons, List.foldl_nil]
    rw [drawImageAt_pix_in _ _ (0 * theSliceWidth img 1 1) 0 x y (by simp)
      (by rw [Nat.zero_mul, Nat.zero_add, hcomp_w]; exact hx) (Nat.zero_le y)
      (by rw [Nat.zero_add, hcomp_h]; exact hy)]
    simp only [Nat.zero_mul, Nat.sub_zero]
    exact hcomp_pix x y hx hy

/-- Witness for C7 at a concrete input: the 2 × 2 source `imgA`. -/
theorem c7_identity_parameters_witness :
    (1 < imgA.w ∧ 1 < imgA.h) ∧
    (finalImage imgA 1 1 1).pix 1 1 = imgA.pix 1 1 :=
  ⟨⟨by norm_num [imgA], by norm_num [imgA]⟩,
    (c7_identity_parameters imgA).2.2 1 1 (by norm_num [imgA])
      (by norm_num [imgA])⟩

/-! ### Claim C8: determinism of the pipeline -/

theorem drawImageAt_comm (z a b : Img) (dya dyb : ℕ)
    (hdisj : ∀ y, ¬ (dya ≤ y ∧ y < dya + a.h ∧ dyb ≤ y ∧ y < dyb + b.h)) :
    drawImageAt (drawImageAt z a 0 dya) b 0 dyb
      = drawImageAt (drawImageAt z b 0 dyb) a 0 dya := by
  apply Img.ext
  · rfl
  · rfl
  · funext x y
    show (drawSub (drawSub z a 0 0 a.w a.h 0 dya) b 0 0 b.w b.h 0 dyb).pix x y
      = (drawSub (drawSub z b 0 0 b.w b.h 0 dyb) a 0 0 a.w a.h 0 dya).pix x y
    rw [drawSub, drawSub, drawSub, drawSub]
    simp only
    by_cases hb : 0 ≤ x ∧ x < 0 + b.w ∧ dyb ≤ y ∧ y < dyb + b.h ∧
        0 + (x - 0) < b.w ∧ 0 + (y - dyb) < b.h
    · by_cases ha : 0 ≤ x ∧ x < 0 + a.w ∧ dya ≤ y ∧ y < dya + a.h ∧
          0 + (x - 0) < a.w ∧ 0 + (y - dya) < a.h
      · exact absurd ⟨ha.2.2.1, ha.2.2.2.1, hb.2.2.1, hb.2.2.2.1⟩ (hdisj y)
      · rw [if_pos hb, if_neg ha, if_pos hb]
    · by_cases ha : 0 ≤ x ∧ x < 0 + a.w ∧ dya ≤ y ∧ y < dya + a.h ∧
          0 + (x - 0) < a.w ∧ 0 + (y - dya) < a.h
      · rw [if_neg hb, if_pos ha, if_pos ha]
      · rw [if_neg hb, if_neg ha, if_neg ha, if_neg hb]

theorem drawSliceStep_comm (h : ℕ) (z : Img) (p q : ℕ × Img)
    (hp : p.2.h = h) (hq : q.2.h = h) (hne : p.1 ≠ q.1) :
    drawSliceStep h (drawSliceStep h z p) q
      = drawSliceStep h (drawSliceStep h z q) p := by
  have hd : ∀ (a b : Img), a.h = h → b.h = h → ∀ y,
      ¬ (p.1 * h ≤ y ∧ y < p.1 * h + a.h ∧ q.1 * h ≤ y ∧ y < q.1 * h + b.h) := by
    intro a b ha hb y
    rw [ha, hb]
    exact bands_disjoint hne y
  by_cases hp1 : p.1 % 2 = 1 <;> by_cases hq1 : q.1 % 2 = 1 <;>
    simp only [drawSliceStep, hp1, hq1, if_true, if_false]
  · exact drawImageAt_comm z (flipV p.2) (flipV q.2) _ _
      (hd _ _ (by rw [flipV_h, hp]) (by rw [flipV_h, hq]))
  · exact drawImageAt_comm z (flipV p.2) q.2 _ _
      (hd _ _ (by rw [flipV_h, hp]) hq)
  · exact drawImageAt_comm z p.2 (flipV q.2) _ _
      (hd _ _ hp (by rw [flipV_h, hq]))
  · exact drawImageAt_comm z p.2 q.2 _ _ (hd _ _ hp hq)

/-- Claim C8: the pipeline is a pure function of (source, parameters).  The
only scheduling freedom in the code is the completion order of the
`Promise.all` slice draws; for any two orders (any permutations of the
indexed slice list) the encoded outputs are byte-identical, and both equal
the canonical encoded output. -/
theorem c8_pipeline_deterministic (img : Img) (scale numSplits hrepeat : ℚ)
    (l₁ l₂ : List (ℕ × Img))
    (h₁ : l₁.Perm ((theSlices img scale numSplits).enum))
    (h₂ : l₂.Perm ((theSlices img scale numSplits).enum)) :
    processEncodedWithOrder img scale numSplits hrepeat l₁
      = processEncodedWithOrder img scale numSplits hrepeat l₂ ∧
    processEncodedWithOrder img scale numSplits hrepeat l₁
      = processEncoded img scale numSplits hrepeat := by
  have key : ∀ l : List (ℕ × Img),
      l.Perm ((theSlices img scale numSplits).enum) →
      verticalCompositeOrdered img scale numSplits l
        = verticalComposite img scale numSplits := by
    intro l hl
    have hcomm : ∀ p ∈ l, ∀ q ∈ l, ∀ z,
        drawSliceStep img.h (drawSliceStep img.h z p) q
          = drawSliceStep img.h (drawSliceStep img.h z q) p := by
      intro p hp q hq z
      have hp' : p ∈ (theSlices img scale numSplits).enum := hl.subset hp
      have hq' : q ∈ (theSlices img scale numSplits).enum := hl.subset hq
      by_cases hfst : p.1 = q.1
      · rw [enum_fst_injective hp' hq' hfst]
      · exact drawSliceStep_comm img.h z p q
          (theSlices_dims img scale numSplits p.2 (snd_mem_of_mem_enum hp')).2
          (theSlices_dims img scale numSplits q.2 (snd_mem_of_mem_enum hq')).2
          hfst
    rw [verticalCompositeOrdered, verticalComposite, compositeVertical]
    exact hl.foldl_eq' hcomm _
  have e₁ := key l₁ h₁
  have e₂ := key l₂ h₂
  constructor
  · rw [processEncodedWithOrder, processEncodedWithOrder, e₁, e₂]
  · rw [processEncodedWithOrder, e₁, processEncoded, finalImage]

/-- Witness for C8 at a concrete input: the 2 × 2 source `imgA` with
`scale = 1`, `numSplits = 2`, `horizontalRepeat = 1`; drawing the two slices
in reversed order yields the canonical encoded output. -/
theorem c8_pipeline_deterministic_witness :
    ((theSlices imgA 1 2).enum.reverse.Perm ((theSlices imgA 1 2).enum) ∧
      (theSlices imgA 1 2).enum.Perm ((theSlices imgA 1 2).enum)) ∧
    processEncodedWithOrder imgA 1 2 1 ((theSlices imgA 1 2).enum.reverse)
      = processEncoded imgA 1 2 1 :=
  ⟨⟨List.reverse_perm _, List.Perm.refl _⟩,
    (c8_pipeline_deterministic imgA 1 2 1 _ _ (List.reverse_perm _)
      (List.Perm.refl _)).2⟩

/-! ### Claim C10: fractional numSplits -/

/-- Claim C10: parameters are parsed with `parseFloat` and never rounded, so
a fractional `numSplits = q > 0` is accepted (the clamp stores `q` itself);
the slicing loop guard `i < q` holds exactly for the `⌈q⌉` naturals below
`⌈q⌉`, so the loop executes `⌈q⌉` times, producing `⌈q⌉` slices, and the
vertical composite has height `sourceHeight * ⌈q⌉`. -/
theorem c10_fractional_numSplits (q : ℚ) (hq : 0 < q) :
    clampParam (some q) = q ∧
    (∀ i : ℕ, ((i : ℚ) < q ↔ i < numIters q)) ∧
    ∀ (img : Img) (scale : ℚ),
      (theSlices img scale q).length = numIters q ∧
      (verticalComposite img scale q).h = img.h * numIters q := by
  refine ⟨?_, ?_, ?_⟩
  · rw [clampParam, if_pos hq]
  · intro i
    rw [numIters]
    exact Nat.lt_ceil.symm
  · intro img scale
    refine ⟨theSlices_length img scale q, ?_⟩
    rw [verticalComposite, compositeVertical, foldl_drawSliceStep_h]
    show img.h * (theSlices img scale q).length = _
    rw [theSlices_length]

/-- Witness for C10 at the concrete fractional input `numSplits = 5/2`:
the value is stored unrounded, the loop guard admits `i = 2`
(`⌈5/2⌉ = 3` iterations), and 3 slices are produced. -/
theorem c10_fractional_numSplits_witness :
    0 < (5 / 2 : ℚ) ∧
    clampParam (some (5 / 2 : ℚ)) = 5 / 2 ∧
    (((2 : ℕ) : ℚ) < 5 / 2 ↔ 2 < numIters (5 / 2)) ∧
    numIters (5 / 2 : ℚ) = 3 ∧
    (theSlices imgA 1 (5 / 2)).length = numIters (5 / 2) :=
  ⟨by norm_num,
    (c10_fractional_numSplits (5 / 2) (by norm_num)).1,
    (c10_fractional_numSplits (5 / 2) (by norm_num)).2.1 2,
    by rw [numIters, Nat.ceil_eq_iff] <;> norm_num,
    ((c10_fractional_numSplits (5 / 2) (by norm_num)).2.2 imgA 1).1⟩
